import Mathlib

/-!
Verification development for the daiquiri logging facade
(src/daiquiri/__init__.py).

The Python module is shallowly embedded as follows.

Python dict objects that matter live in an explicit heap: `Store` is a
list of dictionaries, an address is an index into that list, and a value
of type `Value` is either a primitive or a reference `Value.ref a` to the
dictionary stored at address `a`.  This makes object identity, in-place
mutation and the self-referential mapping built by
`KeywordArgumentAdapter.process` expressible: mutating a dict is
replacing the entry at its address, and a dict can hold a reference to
its own address.

Dictionaries themselves are association lists with Python insertion
order semantics: setting an existing key updates it in place, setting a
new key appends, deleting removes the first occurrence.  Real Python
dicts never carry a duplicate key, which theorems mirror with `Nodup`
hypotheses on the key lists where needed.

Stateful module-level behaviour (the root logger, per-logger levels, the
process-wide exception hook, emitted records) is threaded through an
explicit `World` state; the weak-value logger registry is a `RegState`
with an explicit reclamation step `collectLogger` standing for the
weak-value dictionary dropping an entry once no strong reference to the
adapter remains.
-/

namespace Daiquiri

/-- A Python value as far as this module is concerned: primitives plus a
reference to a dict object living in the store. -/
inductive Value where
  | vnone : Value
  | vbool : Bool → Value
  | vint : Int → Value
  | vstr : String → Value
  | ref : Nat → Value
deriving DecidableEq

/-- A Python dict with string keys, in insertion order. -/
abbrev Dict := List (String × Value)

/-- The heap of dict objects; an address is an index into the list. -/
abbrev Store := List Dict

/-- Dict lookup: value at the first occurrence of the key. -/
def alGet {κ α : Type} [DecidableEq κ] : List (κ × α) → κ → Option α
  | [], _ => none
  | p :: rest, k => if p.1 = k then some p.2 else alGet rest k

/-- Dict assignment with Python semantics: an existing key is updated in
place (first occurrence), a new key is appended at the end. -/
def alSet {κ α : Type} [DecidableEq κ] : List (κ × α) → κ → α → List (κ × α)
  | [], k, v => [(k, v)]
  | p :: rest, k, v => if p.1 = k then (k, v) :: rest else p :: alSet rest k v

/-- Dict deletion (the removal half of dict.pop): drops the first
occurrence of the key. -/
def alDel {κ α : Type} [DecidableEq κ] : List (κ × α) → κ → List (κ × α)
  | [], _ => []
  | p :: rest, k => if p.1 = k then rest else p :: alDel rest k

/-- Python dict.update: every entry of the second dict is assigned into
the first, in order. -/
def dictUpdate (d other : Dict) : Dict :=
  other.foldl (fun acc p => alSet acc p.1 p.2) d

/-- The loop of KeywordArgumentAdapter.process over list(kwargs.keys()):
every entry whose key is not exc_info is popped from kwargs and assigned
into the extra dict; the exc_info entry is left in kwargs.  Returns the
remaining kwargs and the grown extra dict. -/
def moveKw : List (String × Value) → Dict → List (String × Value) × Dict
  | [], extra => ([], extra)
  | p :: rest, extra =>
    if p.1 = "exc_info" then
      let r := moveKw rest extra
      (p :: r.1, r.2)
    else
      moveKw rest (alSet extra p.1 p.2)

/-- The outcome of KeywordArgumentAdapter.process: the returned message,
the keyword dict as the call left it (Python mutates the callers dict in
place and returns that same object, so this is also the post-state of
the callers kwargs), the heap after the call, and the address of the
newly built merged extra dict. -/
structure PResult where
  msg : String
  kwargs : Dict
  store : Store
  extraAddr : Nat
deriving DecidableEq

/-- Tail of KeywordArgumentAdapter.process after the extra keyword has
been handled: move the non-exc_info keywords, allocate the merged dict
at a fresh address, bind its private self-reference under
_daiquiri_extra, and rebind kwargs extra to it. -/
def processRest (store : Store) (msg : String) (kwargs : Dict) (extra : Dict) : PResult :=
  let moved := moveKw kwargs extra
  let addr := store.length
  let extraFinal := alSet moved.2 "_daiquiri_extra" (Value.ref addr)
  let kwargsFinal := alSet moved.1 "extra" (Value.ref addr)
  ⟨msg, kwargsFinal, store ++ [extraFinal], addr⟩

/-- KeywordArgumentAdapter.process (src/daiquiri/__init__.py lines
37-51).  selfExtraAddr is the address of the adapters bound-defaults
dict (self.extra); the copy of it taken by the source is the pure value
read from the store.  A kwargs entry named extra must reference a dict
in the store; anything else makes dict.update raise, modelled as none. -/
def process (store : Store) (selfExtraAddr : Nat) (msg : String) (kwargs : Dict) :
    Option PResult :=
  match store.get? selfExtraAddr with
  | none => none
  | some selfExtra =>
    match alGet kwargs "extra" with
    | none => some (processRest store msg kwargs selfExtra)
    | some (Value.ref a) =>
      match store.get? a with
      | some e => some (processRest store msg (alDel kwargs "extra") (dictUpdate selfExtra e))
      | none => none
    | some _ => none

/-- The merged structured-field mapping built by a process call: the
dict stored at the result address. -/
def PResult.extraMap (r : PResult) : Dict :=
  (r.store.get? r.extraAddr).getD []

/-- A handler object attached to a logger, identified by an object id. -/
structure Handler where
  hid : Nat
deriving DecidableEq

/-- Modelled from the spec: the repository imports daiquiri.output, a
module that is not among the sources; by the Output Contract of the spec
a sink exposes one capability, attaching the handlers it needs to the
given logger.  An output is therefore the list of handlers its
add_to_logger installs. -/
structure Output where
  handlers : List Handler
deriving DecidableEq

/-- The process-wide uncaught-exception handler slot (sys.excepthook):
either the interpreter default or the hook closure installed by setup,
which captures program_name. -/
inductive Excepthook where
  | platformDefault : Excepthook
  | daiquiriHook (programName : Option String) : Excepthook
deriving DecidableEq

/-- A record emitted through the platform logging facility: the logger
name it was issued on, the severity, and the message. -/
structure LogRecord where
  loggerName : Option String
  level : Int
  msg : String
deriving DecidableEq

/-- The process-wide mutable logging state touched by the module: the
root logger handler list and threshold, the explicitly set levels of
named loggers, the exception hook slot, and the emitted records. -/
structure World where
  rootHandlers : List Handler
  rootLevel : Int
  levels : List (String × Int)
  excepthook : Excepthook
  records : List LogRecord
deriving DecidableEq

/-- logging.CRITICAL. -/
def CRITICAL : Int := 50

/-- logging.WARNING. -/
def WARNING : Int := 30

/-- Modelled from the spec: Output Contract attach, installing the
outputs handlers on the root logger (o.add_to_logger(root_logger)). -/
def Output.add_to_logger (o : Output) (w : World) : World :=
  { w with rootHandlers := w.rootHandlers ++ o.handlers }

/-- Modelled from the spec: the default standard-error text sink
output.STDERR, an output installing a single stream handler. -/
def STDERR : Output := ⟨[⟨1⟩]⟩

/-- The fresh logging.StreamHandler() that setup installs as a
temporary fallback when the root logger has no handlers yet. -/
def bootstrapHandler : Handler := ⟨0⟩

/-- Modelled from the Python standard library: the lines returned by
traceback.format_exception(exc_type, value, tb) are the formatted
traceback followed by the final exception line.  The exact text is
immaterial to the claims, which only concern the joined single
message. -/
def traceback_format_exception (excType excValue tbText : String) : List String :=
  ["Traceback (most recent call last):\n", tbText, excType ++ ": " ++ excValue ++ "\n"]

/-- Logger.critical on the platform logger of the given name: the call
is reported at severity CRITICAL.  Handler-side filtering and rendering
are delegated to the platform facility and not modelled. -/
def loggerCritical (name : Option String) (msg : String) (w : World) : World :=
  { w with records := w.records ++ [⟨name, CRITICAL, msg⟩] }

/-- The logging_excepthook closure defined inside setup
(src/daiquiri/__init__.py lines 87-89): join the formatted exception
into one message and log it critical on the logger named program_name. -/
def logging_excepthook (programName : Option String)
    (excType excValue tbText : String) (w : World) : World :=
  loggerCritical programName
    (String.join (traceback_format_exception excType excValue tbText)) w

/-- setup (src/daiquiri/__init__.py lines 72-101): bootstrap a fallback
stream handler if the root logger has none, install the exception hook,
remove every root handler, attach each output in order, set the root
threshold.  The source removes handlers one by one over a snapshot of
the list, which empties it. -/
def setup (level : Int) (outputs : List Output) (programName : Option String)
    (w : World) : World :=
  let w1 := if w.rootHandlers.isEmpty
    then { w with rootHandlers := w.rootHandlers ++ [bootstrapHandler] } else w
  let w2 := { w1 with excepthook := Excepthook.daiquiriHook programName }
  let w3 := { w2 with rootHandlers := [] }
  let w4 := outputs.foldl (fun acc o => o.add_to_logger acc) w3
  { w4 with rootLevel := level }

/-- A level argument as Python receives it: an int or a str. -/
inductive LevelArg where
  | int : Int → LevelArg
  | str : String → LevelArg
deriving DecidableEq

/-- The standard severity vocabulary of logging._nameToLevel. -/
def nameToLevel (s : String) : Option Int :=
  if s = "CRITICAL" then some 50
  else if s = "FATAL" then some 50
  else if s = "ERROR" then some 40
  else if s = "WARN" then some 30
  else if s = "WARNING" then some 30
  else if s = "INFO" then some 20
  else if s = "DEBUG" then some 10
  else if s = "NOTSET" then some 0
  else none

/-- Writing a resolved numeric level onto the platform logger named by
the string: logging.getLogger returns the root logger for an empty
name, any other name resolves to the named logger. -/
def setPlatformLevel (w : World) (name : String) (lv : Int) : World :=
  if name = "" then { w with rootLevel := lv }
  else { w with levels := alSet w.levels name lv }

/-- The world state paired with the pending Python exception, if one
was raised: mutations made before the raise persist. -/
structure StepResult where
  world : World
  err : Option String
deriving DecidableEq

/-- logging.getLogger(name).setLevel(level): logging._checkLevel passes
an int through unchanged and resolves a str through the standard
severity names, raising ValueError otherwise. -/
def pyLoggerSetLevel (w : World) (name : String) (lv : LevelArg) : StepResult :=
  match lv with
  | LevelArg.int n => ⟨setPlatformLevel w name n, none⟩
  | LevelArg.str s =>
    match nameToLevel s with
    | some n => ⟨setPlatformLevel w name n, none⟩
    | none => ⟨w, some "ValueError: unknown level"⟩

/-- str.upper over the characters of the string; the severity names
this module upper-cases are plain ASCII, for which the per-character
upper-casing agrees with the Python method. -/
def pyUpper (s : String) : String := String.mk (s.data.map Char.toUpper)

/-- The loop body of set_default_log_levels (src/daiquiri/__init__.py
lines 120-123): a str level is upper-cased, then the platform logger of
the name gets the level. -/
def setLevelsStep (w : World) (logger : String) (level : LevelArg) : StepResult :=
  let lv := match level with
    | LevelArg.str s => LevelArg.str (pyUpper s)
    | l => l
  pyLoggerSetLevel w logger lv

/-- set_default_log_levels (src/daiquiri/__init__.py lines 115-123)
over a list of (name, level) tuples; an exception stops the loop with
the mutations so far kept. -/
def set_default_log_levels : List (String × LevelArg) → World → StepResult
  | [], w => ⟨w, none⟩
  | (logger, level) :: rest, w =>
    let r := setLevelsStep w logger level
    match r.err with
    | some e => ⟨r.world, some e⟩
    | none => set_default_log_levels rest r.world

/-- Whether the first list of characters is an initial segment of the
second. -/
def leadsWith : List Char → List Char → Bool
  | [], _ => true
  | _ :: _, [] => false
  | a :: as, b :: bs => a = b && leadsWith as bs

/-- Index of the first occurrence of the pattern in the character
list, if any. -/
def findSub (pat : List Char) : List Char → Option Nat
  | [] => if leadsWith pat [] then some 0 else none
  | c :: cs => if leadsWith pat (c :: cs) then some 0 else (findSub pat cs).map (· + 1)

/-- str.split(sep, 1): at most one split, at the first occurrence of
the separator; no occurrence leaves the string whole.  (Python raises
on an empty separator; the module always splits on a non-empty one.) -/
def pySplit1 (sep s : String) : List String :=
  if sep.data.isEmpty then [s]
  else match findSub sep.data s.data with
    | none => [s]
    | some i => [String.mk (s.data.take i), String.mk (s.data.drop (i + sep.data.length))]

/-- parse_and_set_default_log_levels (src/daiquiri/__init__.py lines
104-112): set_default_log_levels consumes the generator of split
results lazily, so each string is split and tuple-unpacked in turn;
a split result without exactly two parts fails the unpacking with
ValueError at that point, keeping the levels already applied. -/
def parse_and_set_default_log_levels (strs : List String) (sep : String)
    (w : World) : StepResult :=
  match strs with
  | [] => ⟨w, none⟩
  | s :: rest =>
    match pySplit1 sep s with
    | [logger, level] =>
      let r := setLevelsStep w logger (LevelArg.str level)
      match r.err with
      | some e => ⟨r.world, some e⟩
      | none => parse_and_set_default_log_levels rest sep r.world
    | _ => ⟨w, some "ValueError: not enough values to unpack (expected 2, got 1)"⟩

/-- A KeywordArgumentAdapter as the registry sees it: an object id (for
identity), the name of the wrapped platform logger, and the bound
default fields given at construction. -/
structure Adapter where
  aid : Nat
  loggerName : Option String
  extra : Dict
deriving DecidableEq

/-- The module-level weak-value registry _LOGGERS plus an allocation
counter giving each constructed adapter a distinct object id. -/
structure RegState where
  table : List (Option String × Adapter)
  nextId : Nat
deriving DecidableEq

/-- getLogger (src/daiquiri/__init__.py lines 57-69): a cache hit
returns the registered adapter; a miss constructs a
KeywordArgumentAdapter over logging.getLogger(name) with the call
keyword arguments as bound fields, registers it, and returns it. -/
def getLogger (name : Option String) (kwargs : Dict) (s : RegState) :
    Adapter × RegState :=
  match alGet s.table name with
  | some a => (a, s)
  | none =>
    let adapter : Adapter := ⟨s.nextId, name, kwargs⟩
    (adapter, ⟨alSet s.table name adapter, s.nextId + 1⟩)

/-- The weak-value dictionary dropping its entry for a name: the
reclamation step the garbage collector performs once no strong
reference to the registered adapter remains. -/
def collectLogger (name : Option String) (s : RegState) : RegState :=
  ⟨alDel s.table name, s.nextId⟩

/-! Association-list lemmas. -/

theorem alGet_alSet_self {κ α : Type} [DecidableEq κ] (d : List (κ × α)) (k : κ) (v : α) :
    alGet (alSet d k v) k = some v := by
  induction d with
  | nil => simp [alSet, alGet]
  | cons p rest ih =>
    by_cases h : p.1 = k
    · simp [alSet, h, alGet]
    · simp [alSet, h, alGet, ih]

theorem alGet_alSet_ne {κ α : Type} [DecidableEq κ] (d : List (κ × α)) {k k' : κ} (v : α)
    (h : k' ≠ k) : alGet (alSet d k v) k' = alGet d k' := by
  induction d with
  | nil => simp [alSet, alGet, Ne.symm h]
  | cons p rest ih =>
    by_cases hp : p.1 = k
    · have hp' : ¬ k = k' := fun hh => h (hh.symm)
      have hp'' : ¬ p.1 = k' := by rw [hp]; exact hp'
      rw [alSet, if_pos hp]
      show (if k = k' then some v else alGet rest k') = alGet (p :: rest) k'
      rw [if_neg hp']
      show alGet rest k' = if p.1 = k' then some p.2 else alGet rest k'
      rw [if_neg hp'']
    · rw [alSet, if_neg hp]
      show (if p.1 = k' then some p.2 else alGet (alSet rest k v) k')
        = if p.1 = k' then some p.2 else alGet rest k'
      rw [ih]

theorem alGet_eq_none_iff {κ α : Type} [DecidableEq κ] (d : List (κ × α)) (k : κ) :
    alGet d k = none ↔ k ∉ d.map Prod.fst := by
  induction d with
  | nil => simp [alGet]
  | cons p rest ih =>
    by_cases h : p.1 = k
    · simp [alGet, h]
    · simp [alGet, h, ih, Ne.symm h]

theorem alSet_of_not_mem {κ α : Type} [DecidableEq κ] {d : List (κ × α)} {k : κ} (v : α)
    (h : k ∉ d.map Prod.fst) : alSet d k v = d ++ [(k, v)] := by
  induction d with
  | nil => simp [alSet]
  | cons p rest ih =>
    simp only [List.map_cons, List.mem_cons, not_or] at h
    simp [alSet, Ne.symm h.1, ih h.2]

theorem alDel_map_fst_sublist {κ α : Type} [DecidableEq κ] (d : List (κ × α)) (k : κ) :
    ((alDel d k).map Prod.fst).Sublist (d.map Prod.fst) := by
  induction d with
  | nil => simp [alDel]
  | cons p rest ih =>
    by_cases h : p.1 = k
    · simp only [alDel, if_pos h, List.map_cons]
      exact List.sublist_cons_self _ _
    · simp only [alDel, if_neg h, List.map_cons]
      exact ih.cons₂ p.1

theorem alGet_alDel_ne {κ α : Type} [DecidableEq κ] (d : List (κ × α)) {k k' : κ}
    (h : k' ≠ k) : alGet (alDel d k) k' = alGet d k' := by
  induction d with
  | nil => simp [alDel]
  | cons p rest ih =>
    by_cases hp : p.1 = k
    · have hp' : ¬ p.1 = k' := by rw [hp]; exact Ne.symm h
      rw [alDel, if_pos hp]
      show alGet rest k' = alGet (p :: rest) k'
      show alGet rest k' = if p.1 = k' then some p.2 else alGet rest k'
      rw [if_neg hp']
    · rw [alDel, if_neg hp]
      show (if p.1 = k' then some p.2 else alGet (alDel rest k) k')
        = if p.1 = k' then some p.2 else alGet rest k'
      rw [ih]

theorem not_mem_alDel_self {κ α : Type} [DecidableEq κ] {d : List (κ × α)} {k : κ}
    (hnd : (d.map Prod.fst).Nodup) : k ∉ (alDel d k).map Prod.fst := by
  induction d with
  | nil => simp [alDel]
  | cons p rest ih =>
    rw [List.map_cons, List.nodup_cons] at hnd
    by_cases hp : p.1 = k
    · rw [alDel, if_pos hp]
      exact hp ▸ hnd.1
    · simp only [alDel, if_neg hp, List.map_cons, List.mem_cons, not_or]
      exact ⟨fun hh => hp hh.symm, ih hnd.2⟩

theorem alGet_append_of_some {κ α : Type} [DecidableEq κ] {d₁ : List (κ × α)}
    (d₂ : List (κ × α)) {k : κ} {v : α} (h : alGet d₁ k = some v) :
    alGet (d₁ ++ d₂) k = some v := by
  induction d₁ with
  | nil => simp [alGet] at h
  | cons p rest ih =>
    by_cases hp : p.1 = k
    · simpa [alGet, hp] using h
    · rw [List.cons_append]
      simp only [alGet, if_neg hp] at h ⊢
      exact ih h

theorem alGet_append_of_none {κ α : Type} [DecidableEq κ] {d₁ : List (κ × α)}
    (d₂ : List (κ × α)) {k : κ} (h : alGet d₁ k = none) :
    alGet (d₁ ++ d₂) k = alGet d₂ k := by
  induction d₁ with
  | nil => rfl
  | cons p rest ih =>
    by_cases hp : p.1 = k
    · simp [alGet, hp] at h
    · rw [List.cons_append]
      simp only [alGet, if_neg hp] at h ⊢
      exact ih h

/-! dict.update lemmas. -/

theorem dictUpdate_cons (d : Dict) (p : String × Value) (o : Dict) :
    dictUpdate d (p :: o) = dictUpdate (alSet d p.1 p.2) o := rfl

theorem alGet_dictUpdate_not_mem {o : Dict} {k : String}
    (h : k ∉ o.map Prod.fst) (d : Dict) :
    alGet (dictUpdate d o) k = alGet d k := by
  induction o generalizing d with
  | nil => rfl
  | cons p os ih =>
    simp only [List.map_cons, List.mem_cons, not_or] at h
    rw [dictUpdate_cons, ih h.2, alGet_alSet_ne _ _ h.1]

theorem alGet_dictUpdate_mem {o : Dict} (hnd : (o.map Prod.fst).Nodup) {k : String}
    {v : Value} (h : alGet o k = some v) (d : Dict) :
    alGet (dictUpdate d o) k = some v := by
  induction o generalizing d with
  | nil => simp [alGet] at h
  | cons p os ih =>
    rw [List.map_cons, List.nodup_cons] at hnd
    by_cases hp : p.1 = k
    · have hv : p.2 = v := by simpa [alGet, hp] using h
      rw [dictUpdate_cons, alGet_dictUpdate_not_mem (hp ▸ hnd.1), ← hp, ← hv,
        alGet_alSet_self]
    · rw [dictUpdate_cons]
      exact ih hnd.2 (by simpa [alGet, hp] using h) _

/-! Lemmas about the keyword-moving loop. -/

theorem moveKw_fst (kw : List (String × Value)) (e : Dict) :
    (moveKw kw e).1 = kw.filter (fun p => decide (p.1 = "exc_info")) := by
  induction kw generalizing e with
  | nil => rfl
  | cons p rest ih =>
    by_cases h : p.1 = "exc_info"
    · simp [moveKw, h, ih, List.filter_cons]
    · simp [moveKw, h, ih, List.filter_cons]

theorem alGet_moveKw_not_mem {kw : List (String × Value)} {k : String}
    (h : k ∉ kw.map Prod.fst) (e : Dict) :
    alGet (moveKw kw e).2 k = alGet e k := by
  induction kw generalizing e with
  | nil => rfl
  | cons p rest ih =>
    simp only [List.map_cons, List.mem_cons, not_or] at h
    by_cases hp : p.1 = "exc_info"
    · simpa [moveKw, hp] using ih h.2 e
    · simp only [moveKw, if_neg hp]
      rw [ih h.2, alGet_alSet_ne _ _ h.1]

theorem alGet_moveKw_excinfo (kw : List (String × Value)) (e : Dict) :
    alGet (moveKw kw e).2 "exc_info" = alGet e "exc_info" := by
  induction kw generalizing e with
  | nil => rfl
  | cons p rest ih =>
    by_cases hp : p.1 = "exc_info"
    · simpa [moveKw, hp] using ih e
    · simp only [moveKw, if_neg hp]
      rw [ih, alGet_alSet_ne _ _ (fun hh => hp hh.symm)]

theorem alGet_moveKw_mem {kw : List (String × Value)}
    (hnd : (kw.map Prod.fst).Nodup) {k : String} (hk : k ≠ "exc_info") {v : Value}
    (h : alGet kw k = some v) (e : Dict) :
    alGet (moveKw kw e).2 k = some v := by
  induction kw generalizing e with
  | nil => simp [alGet] at h
  | cons p rest ih =>
    rw [List.map_cons, List.nodup_cons] at hnd
    by_cases hp : p.1 = k
    · have hpe : ¬ p.1 = "exc_info" := by rw [hp]; exact hk
      have hv : p.2 = v := by simpa [alGet, hp] using h
      simp only [moveKw, if_neg hpe]
      rw [alGet_moveKw_not_mem (hp ▸ hnd.1), ← hp, ← hv, alGet_alSet_self]
    · have h' : alGet rest k = some v := by simpa [alGet, hp] using h
      by_cases hpe : p.1 = "exc_info"
      · simpa [moveKw, hpe] using ih hnd.2 h' e
      · simp only [moveKw, if_neg hpe]
        exact ih hnd.2 h' _

/-! List.get? lemmas for the store. -/

theorem store_get?_append_left {α : Type} {l₁ : List α} (l₂ : List α) {i : Nat}
    (h : i < l₁.length) : (l₁ ++ l₂).get? i = l₁.get? i := by
  induction l₁ generalizing i with
  | nil => exact absurd h (by simp)
  | cons a rest ih =>
    cases i with
    | zero => rfl
    | succ n =>
      simp only [List.cons_append, List.get?]
      exact ih (by simpa using h)

theorem store_get?_snoc_length {α : Type} (l : List α) (x : α) :
    (l ++ [x]).get? l.length = some x := by
  induction l with
  | nil => rfl
  | cons a rest ih =>
    simpa only [List.cons_append, List.length_cons, List.get?] using ih

/-! Filter lemmas for the exc_info entries kept in kwargs. -/

theorem alGet_filter_excinfo (kw : List (String × Value)) :
    alGet (kw.filter (fun p => decide (p.1 = "exc_info"))) "exc_info"
      = alGet kw "exc_info" := by
  induction kw with
  | nil => rfl
  | cons p rest ih =>
    by_cases h : p.1 = "exc_info"
    · simp [List.filter_cons, h, alGet]
    · simp [List.filter_cons, h, alGet, ih]

theorem filter_excinfo_alDel (d : List (String × Value)) {k : String}
    (hk : k ≠ "exc_info") :
    (alDel d k).filter (fun p => decide (p.1 = "exc_info"))
      = d.filter (fun p => decide (p.1 = "exc_info")) := by
  induction d with
  | nil => rfl
  | cons p rest ih =>
    by_cases hp : p.1 = k
    · have hpe : ¬ p.1 = "exc_info" := by rw [hp]; exact hk
      rw [alDel, if_pos hp, List.filter_cons, if_neg (by simpa using hpe)]
    · rw [alDel, if_neg hp]
      by_cases hpe : p.1 = "exc_info"
      · rw [List.filter_cons, List.filter_cons, if_pos (by simpa using hpe),
          if_pos (by simpa using hpe), ih]
      · rw [List.filter_cons, List.filter_cons, if_neg (by simpa using hpe),
          if_neg (by simpa using hpe), ih]

theorem extra_not_mem_filter_excinfo (kw : List (String × Value)) :
    "extra" ∉ (kw.filter (fun p => decide (p.1 = "exc_info"))).map Prod.fst := by
  intro h
  rcases List.mem_map.mp h with ⟨p, hp, hkey⟩
  have hpe := List.of_mem_filter hp
  rw [decide_eq_true_eq] at hpe
  rw [hpe] at hkey
  exact absurd hkey (by decide)

/-! Characterizations of processRest. -/

theorem processRest_msg (store : Store) (msg : String) (kw : Dict) (e : Dict) :
    (processRest store msg kw e).msg = msg := rfl

theorem processRest_extraAddr (store : Store) (msg : String) (kw : Dict) (e : Dict) :
    (processRest store msg kw e).extraAddr = store.length := rfl

theorem processRest_store (store : Store) (msg : String) (kw : Dict) (e : Dict) :
    (processRest store msg kw e).store
      = store ++ [alSet (moveKw kw e).2 "_daiquiri_extra" (Value.ref store.length)] := rfl

theorem processRest_kwargs (store : Store) (msg : String) (kw : Dict) (e : Dict) :
    (processRest store msg kw e).kwargs
      = kw.filter (fun p => decide (p.1 = "exc_info"))
        ++ [("extra", Value.ref store.length)] := by
  show alSet (moveKw kw e).1 "extra" (Value.ref store.length) = _
  rw [moveKw_fst, alSet_of_not_mem _ (extra_not_mem_filter_excinfo kw)]

theorem processRest_extraMap (store : Store) (msg : String) (kw : Dict) (e : Dict) :
    (processRest store msg kw e).extraMap
      = alSet (moveKw kw e).2 "_daiquiri_extra" (Value.ref store.length) := by
  show ((processRest store msg kw e).store.get? (processRest store msg kw e).extraAddr).getD []
    = _
  rw [processRest_store, processRest_extraAddr, store_get?_snoc_length]
  rfl

/-- A successful process call is a processRest call, on the unchanged
kwargs when no extra keyword is present, or on the kwargs with the
extra keyword popped and its referenced dict merged over the bound
defaults. -/
theorem process_eq (store : Store) (a : Nat) (msg : String) (kwargs : Dict)
    (r : PResult) (h : process store a msg kwargs = some r) :
    (alGet kwargs "extra" = none ∧ ∃ selfExtra, store.get? a = some selfExtra ∧
      r = processRest store msg kwargs selfExtra)
    ∨ (∃ aE E selfExtra, alGet kwargs "extra" = some (Value.ref aE)
        ∧ store.get? aE = some E ∧ store.get? a = some selfExtra
        ∧ r = processRest store msg (alDel kwargs "extra") (dictUpdate selfExtra E)) := by
  unfold process at h
  cases hsa : store.get? a with
  | none => rw [hsa] at h; exact Option.noConfusion h
  | some selfExtra =>
    rw [hsa] at h
    cases hke : alGet kwargs "extra" with
    | none =>
      rw [hke] at h
      exact Or.inl ⟨rfl, selfExtra, rfl, (Option.some.inj h).symm⟩
    | some v =>
      rw [hke] at h
      cases v with
      | ref aE =>
        have h' : (match store.get? aE with
            | some e =>
              some (processRest store msg (alDel kwargs "extra") (dictUpdate selfExtra e))
            | none => none) = some r := h
        cases hsE : store.get? aE with
        | none => rw [hsE] at h'; exact Option.noConfusion h'
        | some E =>
          rw [hsE] at h'
          exact Or.inr ⟨aE, E, selfExtra, rfl, hsE, rfl, (Option.some.inj h').symm⟩
      | vnone => exact Option.noConfusion h
      | vbool b => exact Option.noConfusion h
      | vint n => exact Option.noConfusion h
      | vstr s => exact Option.noConfusion h

theorem alGet_filter_append_excinfo (kw : List (String × Value)) (L : Nat) :
    alGet (kw.filter (fun p => decide (p.1 = "exc_info"))
      ++ [("extra", Value.ref L)]) "exc_info" = alGet kw "exc_info" := by
  cases hcase : alGet (kw.filter (fun p => decide (p.1 = "exc_info"))) "exc_info" with
  | some v => rw [alGet_append_of_some _ hcase, ← alGet_filter_excinfo kw, hcase]
  | none =>
    rw [alGet_append_of_none _ hcase, ← alGet_filter_excinfo kw, hcase]
    simp [alGet]

/-- C1: refuted as frozen.  The claim places every key of the keyword
set other than exc_info into the merged structured-field mapping, but
the reserved extra keyword itself is popped and only its contents are
merged: with both the bound defaults and the supplied extra dict empty,
calling process on kwargs carrying just an extra entry yields a merged
mapping without any key named extra. -/
theorem claim_C1_counterexample :
    ¬ (∀ r : PResult, process [[], []] 0 "m" [("extra", Value.ref 1)] = some r →
        r.msg = "m"
        ∧ ∀ k, k ≠ "exc_info" →
            (alGet ([("extra", Value.ref 1)] : Dict) k).isSome →
            (alGet r.extraMap k).isSome) := by
  intro h
  have hr := h ⟨"m", [("extra", Value.ref 2)], [[], [], [("_daiquiri_extra", Value.ref 2)]], 2⟩
    (by decide)
  exact absurd (hr.2 "extra" (by decide) (by decide)) (by decide)

/-- C1 (amended): for every message and keyword set with distinct
keys, a successful process call returns the message unchanged; every
key of the keyword set other than the reserved exc_info and the extra
keyword itself occurs in the merged structured-field mapping (extra
contributes its contents instead, per C2); exc_info passes through in
the keyword arguments untouched; and every other keyword is consumed,
the returned keyword set being exactly the retained exc_info entry
followed by extra bound to the merged mapping. -/
theorem process_keyword_capture (store : Store) (a : Nat) (msg : String) (kwargs : Dict)
    (hnd : (kwargs.map Prod.fst).Nodup) (r : PResult)
    (h : process store a msg kwargs = some r) :
    r.msg = msg
    ∧ (∀ k, k ≠ "exc_info" → k ≠ "extra" →
        (alGet kwargs k).isSome → (alGet r.extraMap k).isSome)
    ∧ alGet r.kwargs "exc_info" = alGet kwargs "exc_info"
    ∧ r.kwargs = kwargs.filter (fun p => decide (p.1 = "exc_info"))
        ++ [("extra", Value.ref r.extraAddr)] := by
  rcases process_eq store a msg kwargs r h with
    ⟨hke, se, hsa, hr⟩ | ⟨aE, E, se, hke, hsE, hsa, hr⟩
  · subst hr
    refine ⟨rfl, ?_, ?_, ?_⟩
    · intro k hk1 hk2 hks
      rw [processRest_extraMap]
      rcases Option.isSome_iff_exists.mp hks with ⟨v, hv⟩
      by_cases hdq : k = "_daiquiri_extra"
      · rw [hdq, alGet_alSet_self]; rfl
      · rw [alGet_alSet_ne _ _ hdq, alGet_moveKw_mem hnd hk1 hv]; rfl
    · rw [processRest_kwargs, alGet_filter_append_excinfo]
    · rw [processRest_kwargs, processRest_extraAddr]
  · subst hr
    have hnd' : ((alDel kwargs "extra").map Prod.fst).Nodup :=
      List.Nodup.sublist (alDel_map_fst_sublist kwargs "extra") hnd
    refine ⟨rfl, ?_, ?_, ?_⟩
    · intro k hk1 hk2 hks
      rw [processRest_extraMap]
      rcases Option.isSome_iff_exists.mp hks with ⟨v, hv⟩
      have hv' : alGet (alDel kwargs "extra") k = some v := by
        rw [alGet_alDel_ne _ hk2]; exact hv
      by_cases hdq : k = "_daiquiri_extra"
      · rw [hdq, alGet_alSet_self]; rfl
      · rw [alGet_alSet_ne _ _ hdq, alGet_moveKw_mem hnd' hk1 hv']; rfl
    · rw [processRest_kwargs, filter_excinfo_alDel _ (by decide),
        alGet_filter_append_excinfo]
    · rw [processRest_kwargs, processRest_extraAddr, filter_excinfo_alDel _ (by decide)]

/-- C1 (amended) at a concrete input: the hypotheses hold and exc_info
passes through untouched. -/
theorem process_keyword_capture_witness :
    ((([("user", Value.vstr "u"), ("exc_info", Value.vbool true)] : Dict).map Prod.fst).Nodup)
    ∧ alGet ([("exc_info", Value.vbool true), ("extra", Value.ref 1)] : Dict) "exc_info"
        = alGet ([("user", Value.vstr "u"), ("exc_info", Value.vbool true)] : Dict) "exc_info" :=
  ⟨by decide,
    (process_keyword_capture [[("app", Value.vstr "a")]] 0 "m"
      [("user", Value.vstr "u"), ("exc_info", Value.vbool true)] (by decide)
      ⟨"m", [("exc_info", Value.vbool true), ("extra", Value.ref 1)],
        [[("app", Value.vstr "a")],
         [("app", Value.vstr "a"), ("user", Value.vstr "u"), ("_daiquiri_extra", Value.ref 1)]],
        1⟩ (by decide)).2.2.1⟩

/-- C2: refuted as frozen.  Call-site keywords do not override the
reserved private key _daiquiri_extra: a call-site keyword of that name
is first written into the merged mapping but then overwritten by the
self-reference, so its call-site value 5 is not the final value. -/
theorem claim_C2_counterexample :
    ¬ (∀ r : PResult,
        process [[], []] 0 "m" [("extra", Value.ref 1), ("_daiquiri_extra", Value.vint 5)]
          = some r →
        ∀ k v, k ≠ "exc_info" → k ≠ "extra" →
          alGet ([("extra", Value.ref 1), ("_daiquiri_extra", Value.vint 5)] : Dict) k
            = some v →
          alGet r.extraMap k = some v) := by
  intro h
  have hr := h ⟨"m", [("extra", Value.ref 2)], [[], [], [("_daiquiri_extra", Value.ref 2)]], 2⟩
    (by decide)
  have := hr "_daiquiri_extra" (Value.vint 5) (by decide) (by decide) (by decide)
  exact absurd this (by decide)

/-- C2 (amended): when the keyword set carries an extra mapping E, the
merged structured-field mapping takes the bound defaults as base, E
overrides the defaults on key collision, and the remaining call-site
keywords (other than exc_info) override both - except for the reserved
private key _daiquiri_extra, which is finally bound to the merged
mapping itself (by reference) regardless of any default, E, or
call-site value for that key. -/
theorem process_extra_precedence (store : Store) (a aE : Nat) (msg : String)
    (kwargs D E : Dict) (r : PResult)
    (hnd : (kwargs.map Prod.fst).Nodup) (hEnd : (E.map Prod.fst).Nodup)
    (hD : store.get? a = some D)
    (hkE : alGet kwargs "extra" = some (Value.ref aE))
    (hE : store.get? aE = some E)
    (h : process store a msg kwargs = some r) :
    (∀ k v, k ≠ "exc_info" → k ≠ "extra" → k ≠ "_daiquiri_extra" →
        alGet kwargs k = some v → alGet r.extraMap k = some v)
    ∧ (∀ k v, k ≠ "_daiquiri_extra" →
        (k = "exc_info" ∨ k = "extra" ∨ alGet kwargs k = none) →
        alGet E k = some v → alGet r.extraMap k = some v)
    ∧ (∀ k v, k ≠ "_daiquiri_extra" →
        (k = "exc_info" ∨ k = "extra" ∨ alGet kwargs k = none) →
        alGet E k = none → alGet D k = some v → alGet r.extraMap k = some v)
    ∧ alGet r.extraMap "_daiquiri_extra" = some (Value.ref r.extraAddr) := by
  rcases process_eq store a msg kwargs r h with
    ⟨hke, se, hsa, hr⟩ | ⟨aE', E', se, hke, hsE, hsa, hr⟩
  · rw [hke] at hkE; exact Option.noConfusion hkE
  · have haE : aE' = aE := Value.ref.inj (Option.some.inj (hke.symm.trans hkE))
    rw [haE] at hsE
    have hEE : E' = E := Option.some.inj (hsE.symm.trans hE)
    have hse : se = D := Option.some.inj (hsa.symm.trans hD)
    rw [hse, hEE] at hr
    subst hr
    have hnd' : ((alDel kwargs "extra").map Prod.fst).Nodup :=
      List.Nodup.sublist (alDel_map_fst_sublist kwargs "extra") hnd
    rw [processRest_extraMap, processRest_extraAddr]
    have hbase : ∀ k, ¬ (k = "exc_info" ∨ k = "extra" ∨ alGet kwargs k = none) ∨
        alGet (moveKw (alDel kwargs "extra") (dictUpdate D E)).2 k
          = alGet (dictUpdate D E) k := by
      intro k
      by_cases hcase : k = "exc_info" ∨ k = "extra" ∨ alGet kwargs k = none
      · refine Or.inr ?_
        rcases hcase with hk | hk | hk
        · rw [hk]; exact alGet_moveKw_excinfo _ _
        · rw [hk]
          exact alGet_moveKw_not_mem (not_mem_alDel_self hnd) _
        · refine alGet_moveKw_not_mem (fun hmem => ?_) _
          have hmem' : k ∈ kwargs.map Prod.fst :=
            (alDel_map_fst_sublist kwargs "extra").subset hmem
          exact absurd hk ((not_iff_not.mpr (alGet_eq_none_iff kwargs k)).mpr
            (fun hh => hh hmem'))
      · exact Or.inl hcase
    refine ⟨?_, ?_, ?_, ?_⟩
    · intro k v hk1 hk2 hk3 hv
      have hv' : alGet (alDel kwargs "extra") k = some v := by
        rw [alGet_alDel_ne _ hk2]; exact hv
      rw [alGet_alSet_ne _ _ hk3, alGet_moveKw_mem hnd' hk1 hv']
    · intro k v hk3 hcase hEk
      rcases hbase k with hc | hc
      · exact absurd hcase hc
      · rw [alGet_alSet_ne _ _ hk3, hc, alGet_dictUpdate_mem hEnd hEk]
    · intro k v hk3 hcase hEk hDk
      rcases hbase k with hc | hc
      · exact absurd hcase hc
      · rw [alGet_alSet_ne _ _ hk3, hc,
          alGet_dictUpdate_not_mem ((alGet_eq_none_iff E k).mp hEk), hDk]
    · rw [alGet_alSet_self]

/-- C2 (amended) at a concrete input: the hypotheses hold and the
private key holds the self-reference. -/
theorem process_extra_precedence_witness :
    ((([("extra", Value.ref 1), ("y", Value.vint 4), ("z", Value.vint 5)] : Dict).map
      Prod.fst).Nodup)
    ∧ alGet
        (PResult.extraMap ⟨"m", [("extra", Value.ref 2)],
          [[("app", Value.vstr "a"), ("x", Value.vint 1)],
           [("x", Value.vint 2), ("y", Value.vint 3)],
           [("app", Value.vstr "a"), ("x", Value.vint 2), ("y", Value.vint 4),
            ("z", Value.vint 5), ("_daiquiri_extra", Value.ref 2)]], 2⟩)
        "_daiquiri_extra" = some (Value.ref 2) :=
  ⟨by decide,
    (process_extra_precedence
      [[("app", Value.vstr "a"), ("x", Value.vint 1)], [("x", Value.vint 2), ("y", Value.vint 3)]]
      0 1 "m"
      [("extra", Value.ref 1), ("y", Value.vint 4), ("z", Value.vint 5)]
      [("app", Value.vstr "a"), ("x", Value.vint 1)]
      [("x", Value.vint 2), ("y", Value.vint 3)]
      ⟨"m", [("extra", Value.ref 2)],
        [[("app", Value.vstr "a"), ("x", Value.vint 1)],
         [("x", Value.vint 2), ("y", Value.vint 3)],
         [("app", Value.vstr "a"), ("x", Value.vint 2), ("y", Value.vint 4),
          ("z", Value.vint 5), ("_daiquiri_extra", Value.ref 2)]], 2⟩
      (by decide) (by decide) (by decide) (by decide) (by decide) (by decide)).2.2.2⟩

/-- C8: refuted as frozen.  The claim says the callers keyword set is
not mutated, but process pops keys from the kwargs dict and rebinds its
extra slot in place: even on an empty kwargs dict the post-state gains
an extra entry, so the callers dict does not keep its prior contents. -/
theorem claim_C8_counterexample :
    ¬ (∀ r : PResult, process [[]] 0 "m" [] = some r → r.kwargs = ([] : Dict)) := by
  intro h
  exact absurd
    (h ⟨"m", [("extra", Value.ref 1)], [[], [("_daiquiri_extra", Value.ref 1)]], 1⟩ (by decide))
    (by decide)

/-- C8 (amended): process mutates no pre-existing object - the bound
defaults dict, a caller-supplied extra dict and every other dict in the
heap are unchanged, the only heap growth being the newly built merged
mapping at a fresh address - but it does mutate the callers keyword
dict in place, consuming the non-exc_info keys and rebinding extra. -/
theorem process_frame (store : Store) (a : Nat) (msg : String) (kwargs : Dict)
    (r : PResult) (h : process store a msg kwargs = some r) :
    r.store.length = store.length + 1
    ∧ (∀ i, i < store.length → r.store.get? i = store.get? i)
    ∧ r.extraAddr = store.length := by
  rcases process_eq store a msg kwargs r h with
    ⟨hke, se, hsa, hr⟩ | ⟨aE, E, se, hke, hsE, hsa, hr⟩ <;>
    (subst hr
     rw [processRest_store, processRest_extraAddr]
     exact ⟨by simp, fun i hi => store_get?_append_left _ hi, rfl⟩)

/-- C8 (amended) at a concrete input: the process equation holds and
the heap grew by exactly the merged mapping. -/
theorem process_frame_witness :
    process [[]] 0 "m" []
      = some ⟨"m", [("extra", Value.ref 1)], [[], [("_daiquiri_extra", Value.ref 1)]], 1⟩
    ∧ ([[], [("_daiquiri_extra", Value.ref 1)]] : Store).length = ([[]] : Store).length + 1 :=
  ⟨by decide,
    (process_frame [[]] 0 "m" []
      ⟨"m", [("extra", Value.ref 1)], [[], [("_daiquiri_extra", Value.ref 1)]], 1⟩
      (by decide)).1⟩

/-- C10: after a successful process call, the kwargs extra slot
references the merged mapping, and that mapping holds under its
_daiquiri_extra key a reference to its own address - the nesting is by
reference, a cyclic structure rather than a copy. -/
theorem process_self_reference (store : Store) (a : Nat) (msg : String) (kwargs : Dict)
    (r : PResult) (h : process store a msg kwargs = some r) :
    alGet r.kwargs "extra" = some (Value.ref r.extraAddr)
    ∧ alGet r.extraMap "_daiquiri_extra" = some (Value.ref r.extraAddr) := by
  rcases process_eq store a msg kwargs r h with
    ⟨hke, se, hsa, hr⟩ | ⟨aE, E, se, hke, hsE, hsa, hr⟩ <;>
    (subst hr
     rw [processRest_kwargs, processRest_extraMap, processRest_extraAddr]
     constructor
     · rw [alGet_append_of_none _
         ((alGet_eq_none_iff _ _).mpr (extra_not_mem_filter_excinfo _))]
       simp [alGet]
     · rw [alGet_alSet_self])

/-- C10 at a concrete input: the self-reference is present. -/
theorem process_self_reference_witness :
    process [[]] 0 "m" []
      = some ⟨"m", [("extra", Value.ref 1)], [[], [("_daiquiri_extra", Value.ref 1)]], 1⟩
    ∧ alGet
        (PResult.extraMap
          ⟨"m", [("extra", Value.ref 1)], [[], [("_daiquiri_extra", Value.ref 1)]], 1⟩)
        "_daiquiri_extra" = some (Value.ref 1) :=
  ⟨by decide,
    (process_self_reference [[]] 0 "m" []
      ⟨"m", [("extra", Value.ref 1)], [[], [("_daiquiri_extra", Value.ref 1)]], 1⟩
      (by decide)).2⟩

theorem attachAll_eq (outputs : List Output) (w : World) :
    outputs.foldl (fun acc o => o.add_to_logger acc) w
      = { w with rootHandlers := w.rootHandlers ++ (outputs.map Output.handlers).flatten } := by
  induction outputs generalizing w with
  | nil => simp
  | cons o os ih =>
    rw [List.foldl_cons, ih]
    simp [Output.add_to_logger, List.append_assoc]

/-- C3: after setup returns, the root logger handler set consists of
exactly the handlers installed by the outputs, in caller-supplied
order, with no residual bootstrap handler (the reset step empties the
handler list before attaching); the root threshold equals level; and
the installed exception hook is the daiquiri hook for program_name. -/
theorem setup_spec (level : Int) (outputs : List Output) (programName : Option String)
    (w : World) :
    (setup level outputs programName w).rootHandlers = (outputs.map Output.handlers).flatten
    ∧ (setup level outputs programName w).rootLevel = level
    ∧ (setup level outputs programName w).excepthook
        = Excepthook.daiquiriHook programName := by
  refine ⟨?_, ?_, ?_⟩ <;>
    by_cases hemp : w.rootHandlers.isEmpty <;>
      simp [setup, attachAll_eq, hemp]

/-- C7: the uncaught-exception reporter formats the exception type,
value and traceback into one joined message and reports it at CRITICAL
severity through the logger named after program_name; its entire effect
on the world is appending that single record, and as a total function
of the state it has no failure path of its own - a failure inside the
platform emission is delegated to the platform facility and cannot
originate here. -/
theorem logging_excepthook_spec (programName : Option String)
    (excType excValue tbText : String) (w : World) :
    logging_excepthook programName excType excValue tbText w
      = { w with records := w.records ++
          [⟨programName, CRITICAL,
            String.join (traceback_format_exception excType excValue tbText)⟩] } := rfl

theorem nodup_snoc {β : Type} {l : List β} {x : β} (hnd : l.Nodup) (hx : x ∉ l) :
    (l ++ [x]).Nodup := by
  induction l with
  | nil => simp
  | cons a rest ih =>
    rw [List.nodup_cons] at hnd
    rw [List.cons_append, List.nodup_cons]
    refine ⟨?_, ih hnd.2 (fun hh => hx (List.mem_cons_of_mem a hh))⟩
    rw [List.mem_append]
    rintro (hmem | hmem)
    · exact hnd.1 hmem
    · rw [List.mem_singleton] at hmem
      exact hx (hmem ▸ List.mem_cons_self a rest)

/-- C4: while no reclamation intervenes, two sequential getLogger calls
for the same name return the identical adapter instance; the registry
keeps at most one entry per name (distinct keys are preserved); the
reclamation step removes the entry for the name; and after reclamation
a subsequent lookup transparently constructs and registers a fresh
adapter, with no failure path. -/
theorem getLogger_registry_spec (s : RegState) (name : Option String) (k1 k2 : Dict)
    (hnd : (s.table.map Prod.fst).Nodup) :
    (getLogger name k2 (getLogger name k1 s).2).1 = (getLogger name k1 s).1
    ∧ ((getLogger name k1 s).2.table.map Prod.fst).Nodup
    ∧ alGet (collectLogger name s).table name = none
    ∧ alGet (getLogger name k1 (collectLogger name s)).2.table name
        = some (getLogger name k1 (collectLogger name s)).1
    ∧ (getLogger name k1 (collectLogger name s)).1.aid = (collectLogger name s).nextId := by
  have hcol : alGet (collectLogger name s).table name = none :=
    (alGet_eq_none_iff _ _).mpr (not_mem_alDel_self hnd)
  refine ⟨?_, ?_, hcol, ?_, ?_⟩
  · cases hx : alGet s.table name with
    | some a => simp [getLogger, hx]
    | none => simp [getLogger, hx, alGet_alSet_self]
  · cases hx : alGet s.table name with
    | some a => simpa [getLogger, hx] using hnd
    | none =>
      have hmem : name ∉ s.table.map Prod.fst := (alGet_eq_none_iff _ _).mp hx
      simp only [getLogger, hx]
      rw [alSet_of_not_mem _ hmem, List.map_append]
      exact nodup_snoc hnd (by simpa using hmem)
  · simp [getLogger, hcol, alGet_alSet_self]
  · simp [getLogger, hcol]

/-- C4 at a concrete input: the table keys are distinct and the two
sequential lookups agree. -/
theorem getLogger_registry_spec_witness :
    ((([] : List (Option String × Adapter)).map Prod.fst).Nodup)
    ∧ (getLogger (some "svc") [] (getLogger (some "svc") [] ⟨[], 0⟩).2).1
        = (getLogger (some "svc") [] ⟨[], 0⟩).1 :=
  ⟨by decide,
    (getLogger_registry_spec ⟨[], 0⟩ (some "svc") [] [] (by decide)).1⟩

/-- C9: refuted as frozen.  getLogger passes its keyword arguments on
as the bound default fields of the freshly constructed adapter, so on a
first request carrying a keyword the new adapter does not have an empty
bound-field set. -/
theorem claim_C9_counterexample :
    ¬ ((getLogger (some "x") [("foo", Value.vint 1)] ⟨[], 0⟩).1.loggerName = some "x"
      ∧ (getLogger (some "x") [("foo", Value.vint 1)] ⟨[], 0⟩).1.extra = ([] : Dict)
      ∧ alGet (getLogger (some "x") [("foo", Value.vint 1)] ⟨[], 0⟩).2.table (some "x")
          = some (getLogger (some "x") [("foo", Value.vint 1)] ⟨[], 0⟩).1) := by
  decide

/-- C9 (amended): on the first request for a name - no registry entry
present - getLogger constructs a new adapter wrapping the platform
logger identified by that name, whose bound-field set equals the extra
keyword arguments of the call (hence empty when none are given), and
registers it under that name. -/
theorem getLogger_first_request (s : RegState) (name : Option String) (kwargs : Dict)
    (h : alGet s.table name = none) :
    (getLogger name kwargs s).1 = ⟨s.nextId, name, kwargs⟩
    ∧ alGet (getLogger name kwargs s).2.table name = some (getLogger name kwargs s).1 := by
  simp [getLogger, h, alGet_alSet_self]

/-- C9 (amended) at a concrete input: empty registry, no keyword
arguments, so the bound-field set of the new adapter is empty. -/
theorem getLogger_first_request_witness :
    alGet (RegState.table ⟨[], 0⟩) (some "x") = none
    ∧ (getLogger (some "x") [] ⟨[], 0⟩).1 = ⟨0, some "x", []⟩ :=
  ⟨by decide, (getLogger_first_request ⟨[], 0⟩ (some "x") [] (by decide)).1⟩

/-- The level a LevelArg resolves to under set_default_log_levels: an
int passes through unchanged, a str is upper-cased and looked up in the
standard severity names. -/
def resolveLevel : LevelArg → Option Int
  | LevelArg.int n => some n
  | LevelArg.str s => nameToLevel (pyUpper s)

/-- Reading back the threshold of the platform logger named by the
string; the empty name denotes the root logger, unset named loggers
report NOTSET. -/
def loggerLevel (w : World) (name : String) : Int :=
  if name = "" then w.rootLevel else (alGet w.levels name).getD 0

/-- A quiescent process-wide logging state for concrete runs. -/
def initialWorld : World := ⟨[], WARNING, [], Excepthook.platformDefault, []⟩

theorem loggerLevel_setPlatformLevel_self (w : World) (name : String) (lv : Int) :
    loggerLevel (setPlatformLevel w name lv) name = lv := by
  by_cases h : name = "" <;>
    simp [setPlatformLevel, loggerLevel, h, alGet_alSet_self]

theorem loggerLevel_setPlatformLevel_ne (w : World) {name name' : String}
    (h : name' ≠ name) (lv : Int) :
    loggerLevel (setPlatformLevel w name lv) name' = loggerLevel w name' := by
  by_cases h1 : name = "" <;> by_cases h2 : name' = "" <;>
    simp [setPlatformLevel, loggerLevel, h1, h2]
  · exact absurd (h2.trans h1.symm) h
  · rw [alGet_alSet_ne _ _ h]

theorem setLevelsStep_world_preserve (w : World) (logger : String) (level : LevelArg)
    {name : String} (h : name ≠ logger) :
    loggerLevel (setLevelsStep w logger level).world name = loggerLevel w name := by
  cases level with
  | int n => exact loggerLevel_setPlatformLevel_ne w h n
  | str s =>
    show loggerLevel (match nameToLevel (pyUpper s) with
      | some n => (⟨setPlatformLevel w logger n, none⟩ : StepResult)
      | none => (⟨w, some "ValueError: unknown level"⟩ : StepResult)).world name
      = loggerLevel w name
    cases hnl : nameToLevel (pyUpper s) with
    | some n => exact loggerLevel_setPlatformLevel_ne w h n
    | none => rfl

theorem set_levels_preserve (pairs : List (String × LevelArg)) (w : World) {name : String}
    (h : ∀ p ∈ pairs, p.1 ≠ name) :
    loggerLevel (set_default_log_levels pairs w).world name = loggerLevel w name := by
  induction pairs generalizing w with
  | nil => rfl
  | cons q rest ih =>
    cases q with
    | mk logger level =>
      have hq : logger ≠ name := h (logger, level) (List.mem_cons_self _ _)
      have hrest : ∀ p ∈ rest, p.1 ≠ name :=
        fun p hp => h p (List.mem_cons_of_mem _ hp)
      cases herr : (setLevelsStep w logger level).err with
      | some e =>
        show loggerLevel (match (setLevelsStep w logger level).err with
          | some e => (⟨(setLevelsStep w logger level).world, some e⟩ : StepResult)
          | none => set_default_log_levels rest (setLevelsStep w logger level).world).world
            name = loggerLevel w name
        rw [herr]
        exact setLevelsStep_world_preserve w logger level (Ne.symm hq)
      | none =>
        show loggerLevel (match (setLevelsStep w logger level).err with
          | some e => (⟨(setLevelsStep w logger level).world, some e⟩ : StepResult)
          | none => set_default_log_levels rest (setLevelsStep w logger level).world).world
            name = loggerLevel w name
        rw [herr, ih _ hrest,
          setLevelsStep_world_preserve w logger level (Ne.symm hq)]

/-- C6: for a list of pairs over distinct names whose levels all
resolve (every textual level names a standard severity after the
upper-casing, every numeric level passing through unchanged),
set_default_log_levels succeeds and leaves each named platform logger
at the resolved level of its pair. -/
theorem set_default_log_levels_spec (pairs : List (String × LevelArg)) (w : World)
    (hnd : (pairs.map Prod.fst).Nodup)
    (hvalid : ∀ p ∈ pairs, (resolveLevel p.2).isSome) :
    (set_default_log_levels pairs w).err = none
    ∧ ∀ p ∈ pairs, loggerLevel (set_default_log_levels pairs w).world p.1
        = (resolveLevel p.2).getD 0 := by
  induction pairs generalizing w with
  | nil => exact ⟨rfl, by simp⟩
  | cons q rest ih =>
    cases q with
    | mk logger level =>
      rw [List.map_cons, List.nodup_cons] at hnd
      have hv := hvalid (logger, level) (List.mem_cons_self _ _)
      rcases Option.isSome_iff_exists.mp hv with ⟨n, hn⟩
      have hstep : setLevelsStep w logger level = ⟨setPlatformLevel w logger n, none⟩ := by
        cases level with
        | int m =>
          have : m = n := by simpa [resolveLevel] using hn
          rw [this]; rfl
        | str s =>
          have hn' : nameToLevel (pyUpper s) = some n := by simpa [resolveLevel] using hn
          show (match nameToLevel (pyUpper s) with
            | some n => (⟨setPlatformLevel w logger n, none⟩ : StepResult)
            | none => (⟨w, some "ValueError: unknown level"⟩ : StepResult))
            = (⟨setPlatformLevel w logger n, none⟩ : StepResult)
          rw [hn']
      have hrest := ih (setPlatformLevel w logger n) hnd.2
        (fun p hp => hvalid p (List.mem_cons_of_mem _ hp))
      have heq : set_default_log_levels ((logger, level) :: rest) w
          = set_default_log_levels rest (setPlatformLevel w logger n) := by
        show (match (setLevelsStep w logger level).err with
          | some e => (⟨(setLevelsStep w logger level).world, some e⟩ : StepResult)
          | none => set_default_log_levels rest (setLevelsStep w logger level).world)
            = set_default_log_levels rest (setPlatformLevel w logger n)
        rw [hstep]
      rw [heq]
      refine ⟨hrest.1, ?_⟩
      intro p hp
      rcases List.mem_cons.mp hp with hp | hp
      · have hnot : ∀ q ∈ rest, q.1 ≠ logger := by
          intro q hq heq2
          have hm : q.1 ∈ rest.map Prod.fst := List.mem_map_of_mem Prod.fst hq
          rw [heq2] at hm
          exact hnd.1 hm
        rw [hp]
        show loggerLevel (set_default_log_levels rest (setPlatformLevel w logger n)).world
          logger = (resolveLevel level).getD 0
        rw [set_levels_preserve rest _ hnot, loggerLevel_setPlatformLevel_self]
        have hn2 : resolveLevel level = some n := hn
        rw [hn2]
        rfl
      · exact hrest.2 p hp

/-- C6 at a concrete input: distinct names, a lower-case textual level
and a numeric one; the textual debug resolves to DEBUG = 10. -/
theorem set_default_log_levels_spec_witness :
    ((([("foo", LevelArg.str "debug"), ("bar", LevelArg.int 25)] :
        List (String × LevelArg)).map Prod.fst).Nodup)
    ∧ loggerLevel
        (set_default_log_levels
          [("foo", LevelArg.str "debug"), ("bar", LevelArg.int 25)] initialWorld).world
        "foo" = 10 :=
  ⟨by decide,
    (set_default_log_levels_spec
      [("foo", LevelArg.str "debug"), ("bar", LevelArg.int 25)] initialWorld
      (by decide) (by decide)).2 ("foo", LevelArg.str "debug") (by decide)⟩

/-- C5: every input string is split into at most two parts, at the
first occurrence of the separator; a well-formed list such as a=INFO,
b=ERROR sets logger a to INFO (20) and logger b to ERROR (40); and a
list holding only a string without the separator fails with an error
while leaving every logger level unchanged (the returned world is the
input world). -/
theorem parse_and_set_default_log_levels_spec (w : World) (s sep : String)
    (hsep : sep.data.isEmpty = false) (h : findSub sep.data s.data = none) :
    (∀ sep' s' : String, (pySplit1 sep' s').length ≤ 2)
    ∧ (parse_and_set_default_log_levels [s] sep w).world = w
    ∧ ((parse_and_set_default_log_levels [s] sep w).err).isSome
    ∧ (parse_and_set_default_log_levels ["a=INFO", "b=ERROR"] "=" initialWorld).err = none
    ∧ loggerLevel (parse_and_set_default_log_levels ["a=INFO", "b=ERROR"] "="
        initialWorld).world "a" = 20
    ∧ loggerLevel (parse_and_set_default_log_levels ["a=INFO", "b=ERROR"] "="
        initialWorld).world "b" = 40 := by
  have e : pySplit1 sep s = [s] := by
    simp [pySplit1, hsep, h]
  have e2 : parse_and_set_default_log_levels [s] sep w
      = ⟨w, some "ValueError: not enough values to unpack (expected 2, got 1)"⟩ := by
    simp only [parse_and_set_default_log_levels, e]
  refine ⟨?_, by rw [e2], by rw [e2]; rfl, by decide, by decide, by decide⟩
  intro sep' s'
  unfold pySplit1
  by_cases hx : sep'.data.isEmpty
  · simp [hx]
  · simp only [hx, Bool.false_eq_true, if_false]
    cases findSub sep'.data s'.data <;> simp

/-- C5 at a concrete input: the separator is non-empty, malformed has
no separator occurrence, and the failing call leaves the world
unchanged. -/
theorem parse_and_set_default_log_levels_spec_witness :
    ("=".data.isEmpty = false ∧ findSub "=".data "malformed".data = none)
    ∧ (parse_and_set_default_log_levels ["malformed"] "=" initialWorld).world
        = initialWorld :=
  ⟨⟨by decide, by decide⟩,
    (parse_and_set_default_log_levels_spec initialWorld "malformed" "="
      (by decide) (by decide)).2.1⟩

end Daiquiri
